import Mathlib

/-!
Shallow embedding of the Atlas data-crawling repository
(news ingestion pipeline: crawlers, classifier, location filter,
MongoDB persistence) together with proofs of its specification claims.

Python strings are modelled by Lean `String`; Python dicts that are
iterated in insertion order are modelled by association lists; the
MongoDB collection touched by the upsert path is modelled as a list of
documents; the wall clock is modelled as a natural number of seconds,
frozen for the duration of one ingestion cycle.
-/

set_option autoImplicit false

namespace Atlas

/-! ### Python string primitives -/

/-- Model of list/string equality at the front: true iff the first list
is an initial segment of the second. -/
def leadsWith : List Char → List Char → Bool
  | [], _ => true
  | _ :: _, [] => false
  | a :: as, b :: bs => a = b && leadsWith as bs

/-- Model of the Python substring test: the first list occurs
contiguously somewhere in the second. -/
def containsSub (needle : List Char) : List Char → Bool
  | [] => leadsWith needle []
  | c :: rest => leadsWith needle (c :: rest) || containsSub needle rest

/-- Python `needle in hay` on strings. -/
def strContains (hay needle : String) : Bool :=
  containsSub needle.data hay.data

/-- Python `s.lower()`. -/
def strLower (s : String) : String :=
  ⟨s.data.map Char.toLower⟩

/-! ### crawl/base_news_crawler.py : configuration and classifier -/

/-- Contents of crawler_config.json as consumed by BaseNewsCrawler:
categories (name to keyword list, in declaration order), countries
(keyword to country name, in declaration order), incident keywords. -/
structure CrawlerConfig where
  categories : List (String × List String)
  countries : List (String × String)
  incident_keywords : List String
deriving DecidableEq

/-- The empty configuration that load_config falls back to. -/
def emptyConfig : CrawlerConfig := ⟨[], [], []⟩

/-- BaseNewsCrawler.load_config: the argument models the result of
opening and JSON-parsing the config file (none = the file is missing,
unreadable or malformed).  The source catches every exception, prints
a message and returns the empty dict. -/
def load_config (fileData : Option CrawlerConfig) : CrawlerConfig :=
  match fileData with
  | some cfg => cfg
  | none => emptyConfig

/-- BaseNewsCrawler.__init__ : loads the config and stores its three
tables.  The Except codomain records whether construction can raise;
in the source it never does, because load_config swallows all errors. -/
def initCrawler (fileData : Option CrawlerConfig) : Except String CrawlerConfig :=
  Except.ok (load_config fileData)

/-- One pass of the scoring loop body in categorize_article:
score = sum(1 for keyword in keywords if keyword in text). -/
def keywordScore (text : String) (keywords : List String) : Nat :=
  (keywords.filter (fun keyword => strContains text keyword)).length

/-- The accumulation loop of categorize_article: category_scores holds,
in insertion order, the (category, score) pairs whose score is positive. -/
def scoreLoop (text : String) : List (String × List String) → List (String × Nat) → List (String × Nat)
  | [], acc => acc
  | p :: rest, acc =>
      let score := keywordScore text p.2
      if 0 < score then scoreLoop text rest (acc ++ [(p.1, score)])
      else scoreLoop text rest acc

/-- Python max(keys, key=score) over a nonempty association list:
keeps the current best and replaces it only on a strictly greater
score, so the first key attaining the maximum wins. -/
def maxLoop : String × Nat → List (String × Nat) → String
  | best, [] => best.1
  | best, q :: rest => if best.2 < q.2 then maxLoop q rest else maxLoop best rest

/-- BaseNewsCrawler.categorize_article. -/
def categorize_article (cfg : CrawlerConfig) (title content : String) : String :=
  let text_to_analyze := strLower (title ++ " " ++ content)
  let category_scores := scoreLoop text_to_analyze cfg.categories []
  match category_scores with
  | [] => "General"
  | best :: rest => maxLoop best rest

/-- Spec-side restatement of the categorization contract, written from
the specification text: score every configured category, return the
first-declared category attaining the (positive) maximum score, and
"General" when every score is zero.  Used only to be compared with
categorize_article. -/
def specCategorize (cfg : CrawlerConfig) (title content : String) : String :=
  let text := strLower (title ++ " " ++ content)
  let scores := cfg.categories.map (fun p => (p.1, keywordScore text p.2))
  let m := (scores.map Prod.snd).foldr max 0
  if m = 0 then "General"
  else
    match scores.find? (fun p => p.2 = m) with
    | some p => p.1
    | none => "General"

/-- The country accumulation loop of extract_countries: append the
mapped country when its keyword occurs in the lowered text and the
country was not collected yet. -/
def countryLoop (textLower : String) : List (String × String) → List String → List String
  | [], acc => acc
  | p :: rest, acc =>
      if strContains textLower p.1 && !(acc.contains p.2) then
        countryLoop textLower rest (acc ++ [p.2])
      else countryLoop textLower rest acc

/-- BaseNewsCrawler.extract_countries.  The source ends with
list(set(countries)); the accumulated list is already duplicate-free,
so we keep it as the (order-unspecified) value of that set. -/
def extract_countries (cfg : CrawlerConfig) (text : String) : List String :=
  if text = "" then ["Unknown"]
  else
    let text_lower := strLower text
    let countries := countryLoop text_lower cfg.countries []
    if countries = [] then ["Unknown"] else countries

/-! ### crawl/ap_news_crawler.py : exponential backoff -/

/-- The per-source pacing state of APNewsCrawler: the configured base
delay (request_delay), the configured ceiling (max_delay), the current
delay, and the consecutive-failure counter. -/
structure APBackoff where
  request_delay : Nat
  max_delay : Nat
  current_delay : Nat
  retry_count : Nat
deriving DecidableEq

/-- APNewsCrawler._adjust_delay: success resets the delay to the base
and clears the counter; failure increments the counter and doubles
the base accordingly, capped at max_delay. -/
def adjust_delay (s : APBackoff) (success : Bool) : APBackoff :=
  if success then
    { s with current_delay := s.request_delay, retry_count := 0 }
  else
    let rc := s.retry_count + 1
    { s with retry_count := rc
           , current_delay := min (s.request_delay * 2 ^ rc) s.max_delay }

/-- The reset state for a given base and ceiling (the state right after
__init__ or after a success). -/
def resetBackoff (base maxd : Nat) : APBackoff :=
  ⟨base, maxd, base, 0⟩

/-- The concrete state built by APNewsCrawler.__init__
(request_delay = 2 seconds, max_delay = 30 seconds). -/
def apInitState : APBackoff := resetBackoff 2 30

/-- N consecutive soft-failure updates. -/
def failN (s : APBackoff) : Nat → APBackoff
  | 0 => s
  | n + 1 => adjust_delay (failN s n) false

/-- An arbitrary sequence of outcome updates, applied left to right. -/
def runOutcomes (s : APBackoff) : List Bool → APBackoff
  | [] => s
  | b :: rest => runOutcomes (adjust_delay s b) rest

/-! ### main.py : the ingestion cycle -/

/-- Result of unified_crawler.crawl_single for one source: either the
articles it returned, or the message of the exception it raised. -/
inductive FetchResult (α : Type) where
  | ok (arts : List α)
  | err (msg : String)

/-- Articles contributed by a fetch outcome: an exception contributes
nothing. -/
def okArts {α : Type} : FetchResult α → List α
  | .ok arts => arts
  | .err _ => []

/-- The exception-message test in crawl_and_save:
"AP_NEWS_429_ERROR" in str(e). -/
def marker429 (msg : String) : Bool :=
  strContains msg "AP_NEWS_429_ERROR"

/-- timedelta(minutes=40), in seconds. -/
def minutes40 : Nat := 40 * 60

/-- The source list iterated by crawl_and_save, in program order. -/
def cycleSources : List String := ["bbc", "fox", "ap"]

/-- Mutable state threaded through one crawl_and_save cycle:
the accumulated article list, the global ap_retry_time, and the list
of sources whose fetch was actually attempted this cycle. -/
@[ext]
structure CycleState (α : Type) where
  all_articles : List α
  ap_retry_time : Option Nat
  attempted : List String

/-- The try-body of the per-source loop once past the AP cooldown
check: fetch the source, extend the article list on success; on an
exception, record the 40-minute cooldown when the source is AP and the
message carries the 429 marker, otherwise just log and continue. -/
def fetchPart {α : Type} (fetch : String → FetchResult α) (now : Nat)
    (s : CycleState α) (src : String) : CycleState α :=
  match fetch src with
  | .ok arts =>
      { s with all_articles := s.all_articles ++ arts
             , attempted := s.attempted ++ [src] }
  | .err msg =>
      if src = "ap" && marker429 msg then
        { s with ap_retry_time := some (now + minutes40)
               , attempted := s.attempted ++ [src] }
      else
        { s with attempted := s.attempted ++ [src] }

/-- One iteration of the per-source loop of crawl_and_save, including
the AP retry-time gate: while now is before the recorded retry time the
source is skipped with the cooldown kept; at or past it the cooldown is
cleared and the fetch proceeds. -/
def stepSource {α : Type} (fetch : String → FetchResult α) (now : Nat)
    (s : CycleState α) (src : String) : CycleState α :=
  if src = "ap" then
    match s.ap_retry_time with
    | some t =>
        if now < t then s
        else fetchPart fetch now { s with ap_retry_time := none } src
    | none => fetchPart fetch now s src
  else fetchPart fetch now s src

/-- One crawl_and_save cycle over the configured sources, starting from
the given ap_retry_time. -/
def runCycle {α : Type} (fetch : String → FetchResult α) (now : Nat)
    (retry0 : Option Nat) : CycleState α :=
  cycleSources.foldl (stepSource fetch now) ⟨[], retry0, []⟩

/-! ### crawl/unified_news_crawler.py : crawl_all -/

/-- UnifiedNewsCrawler.crawl_all: iterate the crawlers in declaration
order; a crawler that raises contributes the empty list to the results
map and nothing to all_articles; the rest keep running.  The oracle
gives each crawler's outcome.  Returns (results, all_articles). -/
def crawl_all {α : Type} (crawlRes : String → Except String (List α)) :
    List (String × List α) × List α :=
  cycleSources.foldl
    (fun acc src =>
      match crawlRes src with
      | .ok articles => (acc.1 ++ [(src, articles)], acc.2 ++ articles)
      | .error _ => (acc.1 ++ [(src, [])], acc.2))
    ([], [])

/-- Articles contributed by a crawl_all outcome. -/
def okErrList {α : Type} : Except String (List α) → List α
  | .ok articles => articles
  | .error _ => []

/-! ### db.py / main.py : upsert persistence -/

/-- The simplified_article document written by save_articles_to_db. -/
structure NewsDoc where
  title : String
  published : String
  content : String
  source : String
  category : String
  countries : List String
  locations : List String
  crawled_at : String
deriving DecidableEq

/-- The filter_dict save_articles_to_db passes to MongoDBManager.upsert. -/
structure UpsertFilter where
  title : String
  source : String
deriving DecidableEq

/-- MongoDB equality-filter match on the two filter fields. -/
def matchesFilter (d : NewsDoc) (f : UpsertFilter) : Bool :=
  d.title = f.title && d.source = f.source

/-- The filter save_articles_to_db derives from the article itself. -/
def filterOf (a : NewsDoc) : UpsertFilter :=
  ⟨a.title, a.source⟩

/-- collection.update_one(filter, set-document, upsert=True), matching
part: overwrite the first document matching the filter.  The set
document carries every NewsDoc field, so the matched document becomes
the new document wholesale.  Returns none when nothing matches. -/
def updateFirst (store : List NewsDoc) (a : NewsDoc) : Option (List NewsDoc) :=
  match store with
  | [] => none
  | d :: rest =>
      if matchesFilter d (filterOf a) then some (a :: rest)
      else
        match updateFirst rest a with
        | some rest2 => some (d :: rest2)
        | none => none

/-- MongoDBManager.upsert as invoked from save_articles_to_db: update
the first matching document, or insert a new one built from the filter
equality fields plus the set document (here: the document itself, since
the filter fields come from it).  Returns the new store and the
result string the caller inspects. -/
def upsertDoc (store : List NewsDoc) (a : NewsDoc) : List NewsDoc × String :=
  match updateFirst store a with
  | some store2 => (store2, "updated")
  | none => (store ++ [a], "inserted")

/-- Number of stored documents matching a filter. -/
def countMatching (store : List NewsDoc) (f : UpsertFilter) : Nat :=
  (store.filter (fun d => matchesFilter d f)).length

/-! ### main.py : save_articles_to_db batch loop -/

/-- Whether an Except carries a value. -/
def isOkE {ε α : Type} : Except ε α → Bool
  | .ok _ => true
  | .error _ => false

/-- The per-article loop of save_articles_to_db.  The oracle gives the
store's response to each article's upsert ("updated", an inserted id,
or a raised exception).  Returns the articles whose upsert was actually
invoked, and either the final (inserted, updated) counters or the
exception that escaped the loop.  The whole loop sits inside one
try/except, so the first store exception aborts the remaining batch. -/
def saveLoop {α : Type} (f : α → Except String String) :
    List α → Nat → Nat → List α × Except String (Nat × Nat)
  | [], ins, upd => ([], Except.ok (ins, upd))
  | a :: rest, ins, upd =>
      match f a with
      | .ok r =>
          let next :=
            if r = "updated" then saveLoop f rest ins (upd + 1)
            else saveLoop f rest (ins + 1) upd
          (a :: next.1, next.2)
      | .error e => ([a], Except.error e)

/-- save_articles_to_db's return value: 0 for an empty batch, the
processed count on success, and 0 when the except-branch catches a
store exception. -/
def save_articles_to_db {α : Type} (f : α → Except String String)
    (articles : List α) : Nat :=
  if articles.isEmpty then 0
  else
    match (saveLoop f articles 0 0).2 with
    | .ok (ins, upd) => ins + upd
    | .error _ => 0

/-- The articles whose upsert save_articles_to_db actually invokes. -/
def saveAttempted {α : Type} (f : α → Except String String)
    (articles : List α) : List α :=
  (saveLoop f articles 0 0).1

/-! ### news_classification.py : location filter -/

/-- One aggregated entity returned by the NER pipeline.  Confidence
scores are modelled as rationals: extract_locations only compares them,
never computes with them. -/
structure Entity where
  word : String
  entity_group : String
  score : ℚ
deriving DecidableEq

/-- The dedup-and-threshold loop of extract_locations: seen holds the
lower-cased keys of accepted entities; an entity is skipped when its key
was already accepted, or its score is below min_score, or its word is
shorter than min_length. -/
def locLoop (min_score : ℚ) (min_length : Nat) :
    List Entity → List String → List Entity → List Entity
  | [], _, filtered => filtered
  | e :: rest, seen, filtered =>
      let key := strLower e.word
      if seen.contains key then locLoop min_score min_length rest seen filtered
      else if e.score < min_score || e.word.length < min_length then
        locLoop min_score min_length rest seen filtered
      else locLoop min_score min_length rest (seen ++ [key]) (filtered ++ [e])

/-- NewsLocationExtractor.extract_locations, starting from the raw NER
pipeline output: keep LOC entities only, then run the dedup loop. -/
def extract_locations (entities : List Entity) (min_score : ℚ)
    (min_length : Nat) : List Entity :=
  let loc_entities := entities.filter (fun ent => ent.entity_group = "LOC")
  locLoop min_score min_length loc_entities [] []

/-! ### db.py : insert_from_csv -/

/-- One CSV row as produced by csv.DictReader: column name to cell. -/
def CsvRow : Type := List (String × String)

/-- A document as built inside insert_from_csv: empty cells become None. -/
def CsvDoc : Type := List (String × Option String)

/-- The processed_row computation inside the row loop. -/
def processRow (row : CsvRow) : CsvDoc :=
  row.map (fun p => (p.1, if p.2.trim = "" then none else some p.2))

/-- The row loop of insert_from_csv: each iteration computes
processed_row — and never appends it to data, exactly as in the
source, so data leaves the loop as it entered it. -/
def csvLoop (rows : List CsvRow) (data : List CsvDoc) : List CsvDoc :=
  match rows with
  | [] => data
  | row :: rest =>
      let processed_row := processRow row
      let _ := processed_row
      csvLoop rest data

/-- MongoDBManager.insert_from_csv over an already-opened file: the
argument none models a missing file (raises FileNotFoundError); some
rows models an existing well-formed CSV.  Returns the inserted ids
(here the inserted documents) and the new store. -/
def insert_from_csv (store : List CsvDoc) (file : Option (List CsvRow)) :
    Except String (List CsvDoc × List CsvDoc) :=
  match file with
  | none => Except.error "FileNotFoundError"
  | some rows =>
      let data := csvLoop rows []
      if data.isEmpty then Except.ok ([], store)
      else Except.ok (data, store ++ data)

/-! ### Concrete instances used by witnesses -/

/-- A small configuration in the shape of crawler_config.json. -/
def sampleConfig : CrawlerConfig :=
  ⟨[("disaster", ["earthquake", "flood"]), ("war", ["troops"])],
   [("japan", "Japan"), ("tokyo", "Japan")],
   ["earthquake"]⟩

/-- A concrete article document. -/
def sampleDoc : NewsDoc :=
  ⟨"Quake hits", "2025-06-02 00:00:00", "body text", "AP News",
   "General", ["Japan"], [], "2025-06-02T00:00:00"⟩

/-- A store oracle that rejects the write of article 1. -/
def saveOracle : Nat → Except String String :=
  fun n => if n = 1 then Except.error "write rejected" else Except.ok "inserted"

/-- A fetch oracle where AP signals a hard rate limit and the other
sources return one article each. -/
def fetch429 : String → FetchResult Nat :=
  fun src => if src = "ap" then .err "AP_NEWS_429_ERROR" else .ok [1]

/-! ## Supporting lemmas -/

theorem csvLoop_id (rows : List CsvRow) (data : List CsvDoc) :
    csvLoop rows data = data := by
  induction rows with
  | nil => rfl
  | cons row rest ih => simpa [csvLoop] using ih

theorem adjust_delay_base (s : APBackoff) (b : Bool) :
    (adjust_delay s b).request_delay = s.request_delay
    ∧ (adjust_delay s b).max_delay = s.max_delay := by
  cases b <;> simp [adjust_delay]

theorem failN_fields (s : APBackoff) (n : Nat) :
    (failN s n).request_delay = s.request_delay
    ∧ (failN s n).max_delay = s.max_delay
    ∧ (failN s n).retry_count = s.retry_count + n := by
  induction n with
  | zero => simp [failN]
  | succ k ih =>
      simp only [failN, adjust_delay, if_neg Bool.false_ne_true]
      refine ⟨ih.1, ih.2.1, ?_⟩
      simp [ih.2.2]
      omega

theorem runOutcomes_bounds (b m : Nat) (hbm : b ≤ m) :
    ∀ (outcomes : List Bool) (s : APBackoff),
      s.request_delay = b → s.max_delay = m →
      b ≤ s.current_delay → s.current_delay ≤ m →
      b ≤ (runOutcomes s outcomes).current_delay
      ∧ (runOutcomes s outcomes).current_delay ≤ m := by
  intro outcomes
  induction outcomes with
  | nil => intro s _ _ h1 h2; exact ⟨h1, h2⟩
  | cons o rest ih =>
      intro s hb hm h1 h2
      have hfields := adjust_delay_base s o
      refine ih (adjust_delay s o) (by rw [hfields.1, hb]) (by rw [hfields.2, hm]) ?_ ?_
      · cases o with
        | true => simp [adjust_delay, hb]
        | false =>
            simp only [adjust_delay, if_neg Bool.false_ne_true]
            refine le_min ?_ (by rw [hm]; exact hbm)
            calc b = b * 1 := by ring
            _ ≤ s.request_delay * 2 ^ (s.retry_count + 1) := by
                  rw [hb]
                  exact Nat.mul_le_mul_left b (Nat.one_le_two_pow)
      · cases o with
        | true => simp [adjust_delay, hb, hm, hbm]
        | false =>
            simp only [adjust_delay, if_neg Bool.false_ne_true]
            rw [← hm]
            exact min_le_right _ _

theorem saveLoop_error_aborts {α : Type} (f : α → Except String String)
    (a : α) (e : String) (ha : f a = Except.error e) :
    ∀ (pre : List α) (post : List α) (ins upd : Nat),
      (∀ x ∈ pre, isOkE (f x) = true) →
      saveLoop f (pre ++ a :: post) ins upd = (pre ++ [a], Except.error e) := by
  intro pre
  induction pre with
  | nil =>
      intro post ins upd _
      simp [saveLoop, ha]
  | cons x rest ih =>
      intro post ins upd hpre
      have hx : isOkE (f x) = true := hpre x (by simp)
      obtain ⟨r, hr⟩ : ∃ r, f x = Except.ok r := by
        cases hfx : f x with
        | ok r => exact ⟨r, rfl⟩
        | error e2 => rw [hfx] at hx; simp [isOkE] at hx
      have hrest : ∀ y ∈ rest, isOkE (f y) = true := fun y hy => hpre y (by simp [hy])
      simp only [List.cons_append, saveLoop, hr]
      by_cases hcase : r = "updated" <;>
        simp [hcase, ih post _ _ hrest]

theorem matchesFilter_self (a : NewsDoc) : matchesFilter a (filterOf a) = true := by
  simp [matchesFilter, filterOf]

theorem updateFirst_none_iff (a : NewsDoc) :
    ∀ store : List NewsDoc,
      updateFirst store a = none ↔ ∀ d ∈ store, matchesFilter d (filterOf a) = false := by
  intro store
  induction store with
  | nil => simp [updateFirst]
  | cons d rest ih =>
      by_cases hd : matchesFilter d (filterOf a) = true
      · simp [updateFirst, hd]
      · have hd2 : matchesFilter d (filterOf a) = false := by
          cases h : matchesFilter d (filterOf a)
          · rfl
          · exact absurd h hd
        constructor
        · intro hnone
          intro x hx
          rcases List.mem_cons.mp hx with hx | hx
          · rw [hx]; exact hd2
          · simp only [updateFirst, hd2, Bool.false_eq_true, if_false] at hnone
            cases hrec : updateFirst rest a with
            | some r => rw [hrec] at hnone; cases hnone
            | none => exact (ih.mp hrec) x hx
        · intro hall
          simp only [updateFirst, hd2, Bool.false_eq_true, if_false]
          have : updateFirst rest a = none :=
            ih.mpr (fun x hx => hall x (by simp [hx]))
          rw [this]

theorem updateFirst_decompose (a : NewsDoc) :
    ∀ (store s2 : List NewsDoc), updateFirst store a = some s2 →
      ∃ pre d post, store = pre ++ d :: post ∧ s2 = pre ++ a :: post
        ∧ matchesFilter d (filterOf a) = true
        ∧ ∀ x ∈ pre, matchesFilter x (filterOf a) = false := by
  intro store
  induction store with
  | nil => intro s2 h; simp [updateFirst] at h
  | cons d rest ih =>
      intro s2 h
      by_cases hd : matchesFilter d (filterOf a) = true
      · simp only [updateFirst, hd, if_true, Option.some.injEq] at h
        exact ⟨[], d, rest, by simp, by simp [h.symm], hd, by simp⟩
      · have hd2 : matchesFilter d (filterOf a) = false := by
          cases hmf : matchesFilter d (filterOf a)
          · rfl
          · exact absurd hmf hd
        simp only [updateFirst, hd2, Bool.false_eq_true, if_false] at h
        cases hrec : updateFirst rest a with
        | none => rw [hrec] at h; cases h
        | some r =>
            rw [hrec] at h
            injection h with h
            obtain ⟨pre, d2, post, hstore, hs2, hmatch, hpre⟩ := ih r hrec
            refine ⟨d :: pre, d2, post, by simp [hstore], by simp [← h, hs2], hmatch, ?_⟩
            intro x hx
            rcases List.mem_cons.mp hx with hx | hx
            · rw [hx]; exact hd2
            · exact hpre x hx

theorem updateFirst_found (a : NewsDoc) :
    ∀ (pre post : List NewsDoc),
      (∀ x ∈ pre, matchesFilter x (filterOf a) = false) →
      updateFirst (pre ++ a :: post) a = some (pre ++ a :: post) := by
  intro pre
  induction pre with
  | nil => intro post _; simp [updateFirst, matchesFilter_self]
  | cons x rest ih =>
      intro post hpre
      have hx : matchesFilter x (filterOf a) = false := hpre x (by simp)
      have hrest : ∀ y ∈ rest, matchesFilter y (filterOf a) = false :=
        fun y hy => hpre y (by simp [hy])
      simp only [List.cons_append, updateFirst, hx, Bool.false_eq_true, if_false,
        List.append_eq, ih post hrest]

theorem countMatching_no_match (f : UpsertFilter) :
    ∀ store : List NewsDoc,
      (∀ d ∈ store, matchesFilter d f = false) → countMatching store f = 0 := by
  intro store h
  simp only [countMatching, List.length_eq_zero, List.filter_eq_nil_iff]
  intro d hd
  simp [h d hd]

/-! ## Claim theorems -/

/-- C1: persisting the same article twice through the title-and-source
filtered set-overwrite upsert leaves, from any store holding at most one
document per key, exactly one document for that key, whose fields are
those of the (second) write; and from any store whatsoever, repeating
the same upsert reports "updated" and leaves the store unchanged, never
creating a second document. -/
theorem C1_upsert_idempotent (store : List NewsDoc) (a : NewsDoc)
    (hinv : countMatching store (filterOf a) ≤ 1) :
    (∀ st : List NewsDoc,
       upsertDoc (upsertDoc st a).1 a = ((upsertDoc st a).1, "updated"))
    ∧ countMatching (upsertDoc (upsertDoc store a).1 a).1 (filterOf a) = 1
    ∧ ∀ d ∈ (upsertDoc (upsertDoc store a).1 a).1,
        matchesFilter d (filterOf a) = true → d = a := by
  have key : ∀ st : List NewsDoc,
      upsertDoc (upsertDoc st a).1 a = ((upsertDoc st a).1, "updated") := by
    intro st
    cases hsplit : updateFirst st a with
    | none =>
        have hall := (updateFirst_none_iff a st).mp hsplit
        have h1 : (upsertDoc st a).1 = st ++ [a] := by simp [upsertDoc, hsplit]
        have h2 : updateFirst (st ++ [a]) a = some (st ++ [a]) := by
          simpa using updateFirst_found a st [] hall
        rw [h1]
        simp [upsertDoc, h2]
    | some s2 =>
        obtain ⟨pre, d, post, hst, hs2, hmatch, hpre⟩ :=
          updateFirst_decompose a st s2 hsplit
        have h1 : (upsertDoc st a).1 = pre ++ a :: post := by
          simp [upsertDoc, hsplit, hs2]
        have h2 : updateFirst (pre ++ a :: post) a = some (pre ++ a :: post) :=
          updateFirst_found a pre post hpre
        rw [h1]
        simp [upsertDoc, h2]
  refine ⟨key, ?_⟩
  have hfix : (upsertDoc (upsertDoc store a).1 a).1 = (upsertDoc store a).1 := by
    rw [key store]
  rw [hfix]
  cases hsplit : updateFirst store a with
  | none =>
      have hall := (updateFirst_none_iff a store).mp hsplit
      have h1 : (upsertDoc store a).1 = store ++ [a] := by simp [upsertDoc, hsplit]
      constructor
      · rw [h1]
        simp only [countMatching, List.filter_append]
        have : List.filter (fun d => matchesFilter d (filterOf a)) store = [] := by
          simp only [List.filter_eq_nil_iff]
          intro d hd
          simp [hall d hd]
        simp [this, matchesFilter_self]
      · intro d hd _
        rw [h1] at hd
        rcases List.mem_append.mp hd with hd | hd
        · exact absurd (hall d hd) (by simp [‹matchesFilter d (filterOf a) = true›])
        · simpa using hd
  | some s2 =>
      obtain ⟨pre, d, post, hst, hs2, hmatch, hpre⟩ :=
        updateFirst_decompose a store s2 hsplit
      have h1 : (upsertDoc store a).1 = pre ++ a :: post := by
        simp [upsertDoc, hsplit, hs2]
      have hprefilter : List.filter (fun x => matchesFilter x (filterOf a)) pre = [] := by
        simp only [List.filter_eq_nil_iff]
        intro x hx
        simp [hpre x hx]
      have hpostzero : ∀ x ∈ post, matchesFilter x (filterOf a) = false := by
        have hcount : countMatching store (filterOf a)
            = 1 + countMatching post (filterOf a) := by
          rw [hst]
          simp [countMatching, List.filter_append, hprefilter, hmatch]
          omega
        intro x hx
        by_contra hxm
        have hxm2 : matchesFilter x (filterOf a) = true := by
          cases hmf : matchesFilter x (filterOf a)
          · exact absurd hmf hxm
          · rfl
        have : 1 ≤ countMatching post (filterOf a) := by
          have : x ∈ List.filter (fun y => matchesFilter y (filterOf a)) post :=
            List.mem_filter.mpr ⟨hx, hxm2⟩
          have := List.length_pos.mpr (List.ne_nil_of_mem this)
          simpa [countMatching] using this
        omega
      constructor
      · rw [h1]
        have hpostfilter : List.filter (fun x => matchesFilter x (filterOf a)) post = [] := by
          simp only [List.filter_eq_nil_iff]
          intro x hx
          simp [hpostzero x hx]
        simp [countMatching, List.filter_append, hprefilter, hpostfilter, matchesFilter_self]
      · intro x hx hxm
        rw [h1] at hx
        rcases List.mem_append.mp hx with hx | hx
        · exact absurd (hpre x hx) (by simp [hxm])
        · rcases List.mem_cons.mp hx with hx | hx
          · exact hx
          · exact absurd (hpostzero x hx) (by simp [hxm])

/-- C1 witness: upserting a concrete article twice into the empty store. -/
theorem C1_witness :
    countMatching [] (filterOf sampleDoc) ≤ 1
    ∧ upsertDoc (upsertDoc [] sampleDoc).1 sampleDoc
        = ((upsertDoc [] sampleDoc).1, "updated")
    ∧ countMatching (upsertDoc (upsertDoc [] sampleDoc).1 sampleDoc).1
        (filterOf sampleDoc) = 1 := by
  have h := C1_upsert_idempotent [] sampleDoc (by decide)
  exact ⟨by decide, h.1 [], h.2.1⟩

/-- C5: from the reset backoff state, N consecutive soft failures leave
the current delay at min(base * 2 ^ N, maxDelay) with failure counter N;
a success update resets the delay to the configured base and clears the
counter; and along any outcome sequence the delay stays between the
configured base and maximum. -/
theorem C5_exponential_backoff (b m : Nat) (hbm : b ≤ m) (n : Nat)
    (outcomes : List Bool) (s : APBackoff) :
    (failN (resetBackoff b m) n).current_delay = min (b * 2 ^ n) m
    ∧ (failN (resetBackoff b m) n).retry_count = n
    ∧ (s.request_delay = b →
        (adjust_delay s true).current_delay = b
        ∧ (adjust_delay s true).retry_count = 0)
    ∧ b ≤ (runOutcomes (resetBackoff b m) outcomes).current_delay
    ∧ (runOutcomes (resetBackoff b m) outcomes).current_delay ≤ m := by
  refine ⟨?_, ?_, ?_, ?_⟩
  · cases n with
    | zero =>
        simp only [failN, resetBackoff, pow_zero, mul_one]
        exact (min_eq_left hbm).symm
    | succ k =>
        have hfields := failN_fields (resetBackoff b m) k
        simp only [failN, adjust_delay, if_neg Bool.false_ne_true]
        rw [hfields.1, hfields.2.2, hfields.2.1]
        simp [resetBackoff]
  · simpa [resetBackoff] using (failN_fields (resetBackoff b m) n).2.2
  · intro hb
    constructor <;> simp [adjust_delay, hb]
  · have := runOutcomes_bounds b m hbm outcomes (resetBackoff b m)
      (by simp [resetBackoff]) (by simp [resetBackoff])
      (by simp [resetBackoff]) (by simp [resetBackoff, hbm])
    exact ⟨this.1, this.2⟩

/-- C5 witness: the concrete AP configuration, base 2 and ceiling 30. -/
theorem C5_witness :
    (failN (resetBackoff 2 30) 4).current_delay = min (2 * 2 ^ 4) 30
    ∧ (adjust_delay apInitState true).current_delay = 2
    ∧ 2 ≤ (runOutcomes (resetBackoff 2 30) [false, false, true, false]).current_delay := by
  have h := C5_exponential_backoff 2 30 (by decide) 4 [false, false, true, false] apInitState
  exact ⟨h.1, (h.2.2.1 rfl).1, h.2.2.2.1⟩

/-- C3 counterexample: with a store that rejects article 1, the batch
[0, 1, 2] stops at the failure — article 2's upsert is never attempted,
contrary to the claim — and the whole cycle's saved count collapses to 0. -/
theorem C3_counterexample :
    saveAttempted saveOracle [0, 1, 2] = [0, 1]
    ∧ ((2 : Nat) ∈ saveAttempted saveOracle [0, 1, 2] → False)
    ∧ save_articles_to_db saveOracle [0, 1, 2] = 0 := by
  refine ⟨by decide, ?_, by decide⟩
  intro h
  rw [show saveAttempted saveOracle [0, 1, 2] = [0, 1] from by decide] at h
  simp at h

/-- C3 amended: a store failure on one article is caught by the
function-level handler outside the loop, so the failing article is the
last one attempted — the remaining articles in the batch are not
attempted — and the function returns 0 for the cycle, dropping even the
previously succeeded articles from the success count. -/
theorem C3_persistence_failure_aborts_batch {α : Type}
    (f : α → Except String String) (pre post : List α) (a : α) (e : String)
    (hpre : ∀ x ∈ pre, isOkE (f x) = true) (ha : f a = Except.error e) :
    saveAttempted f (pre ++ a :: post) = pre ++ [a]
    ∧ save_articles_to_db f (pre ++ a :: post) = 0 := by
  have hloop := saveLoop_error_aborts f a e ha pre post 0 0 hpre
  constructor
  · simp [saveAttempted, hloop]
  · have hne : (pre ++ a :: post).isEmpty = false := by
      cases pre <;> simp
    simp [save_articles_to_db, hne, hloop]

/-- C3 witness: concrete batch [5, 7, 1, 9] with article 1 rejected. -/
theorem C3_witness :
    saveAttempted saveOracle [5, 7, 1, 9] = [5, 7, 1]
    ∧ save_articles_to_db saveOracle [5, 7, 1, 9] = 0 := by
  have h := C3_persistence_failure_aborts_batch saveOracle [5, 7] [9] 1
    "write rejected" (by decide) (by rfl)
  exact ⟨h.1, h.2⟩

/-- C9 counterexample: constructing a crawler over a missing or
unreadable configuration file does not raise — load_config swallows the
error and the crawler is built with the empty configuration, so no
error surfaces at startup, contrary to the claim. -/
theorem C9_counterexample :
    initCrawler none = Except.ok emptyConfig
    ∧ ∀ e, initCrawler none ≠ Except.error e := by
  exact ⟨rfl, fun e h => by cases h⟩

/-- C9 amended: configuration errors are never raised at all —
load_config catches any read or parse failure and returns the empty
table, so crawler construction always succeeds (with empty category,
country and incident tables when the configuration is missing), and no
configuration error can occur later mid-cycle either. -/
theorem C9_config_errors_swallowed (fileData : Option CrawlerConfig) :
    initCrawler fileData = Except.ok (load_config fileData)
    ∧ isOkE (initCrawler fileData) = true
    ∧ initCrawler none = Except.ok emptyConfig := by
  exact ⟨rfl, rfl, rfl⟩

/-- C10: insert_from_csv of any existing well-formed CSV file inserts
nothing — the row loop never appends the processed row to the data
list, so the empty-data branch is always taken, the returned id list is
empty and the store is unchanged. -/
theorem C10_insert_from_csv_inserts_nothing (store : List CsvDoc)
    (rows : List CsvRow) :
    insert_from_csv store (some rows) = Except.ok ([], store) := by
  simp [insert_from_csv, csvLoop_id]

theorem fetchPart_attempted {α : Type} (fetch : String → FetchResult α)
    (now : Nat) (s : CycleState α) (src : String) :
    (fetchPart fetch now s src).attempted = s.attempted ++ [src] := by
  cases h : fetch src with
  | ok arts => simp [fetchPart, h]
  | err msg =>
      simp only [fetchPart, h]
      by_cases hc : (src = "ap" && marker429 msg) = true <;> simp [hc]

theorem fetchPart_articles {α : Type} (fetch : String → FetchResult α)
    (now : Nat) (s : CycleState α) (src : String) :
    (fetchPart fetch now s src).all_articles = s.all_articles ++ okArts (fetch src) := by
  cases h : fetch src with
  | ok arts => simp [fetchPart, okArts, h]
  | err msg =>
      simp only [fetchPart, h, okArts]
      by_cases hc : (src = "ap" && marker429 msg) = true <;> simp [hc]

theorem fetchPart_retry_ne_ap {α : Type} (fetch : String → FetchResult α)
    (now : Nat) (s : CycleState α) (src : String) (hsrc : ¬ src = "ap") :
    (fetchPart fetch now s src).ap_retry_time = s.ap_retry_time := by
  cases h : fetch src with
  | ok arts => simp [fetchPart, h]
  | err msg => simp [fetchPart, h, hsrc]

theorem stepSource_ne_ap {α : Type} (fetch : String → FetchResult α)
    (now : Nat) (s : CycleState α) (src : String) (hsrc : ¬ src = "ap") :
    stepSource fetch now s src = fetchPart fetch now s src := by
  simp [stepSource, hsrc]

/-- State after the BBC and Fox iterations of a cycle: both sources
were attempted, their articles accumulated, and the AP retry time is
untouched. -/
theorem twoStepState {α : Type} (fetch : String → FetchResult α)
    (now : Nat) (r0 : Option Nat) :
    stepSource fetch now (stepSource fetch now ⟨[], r0, []⟩ "bbc") "fox"
      = ⟨okArts (fetch "bbc") ++ okArts (fetch "fox"), r0, ["bbc", "fox"]⟩ := by
  have h1 : stepSource fetch now ⟨[], r0, []⟩ "bbc"
      = fetchPart fetch now ⟨[], r0, []⟩ "bbc" :=
    stepSource_ne_ap fetch now _ "bbc" (by decide)
  have h2 : ∀ s : CycleState α, stepSource fetch now s "fox" = fetchPart fetch now s "fox" :=
    fun s => stepSource_ne_ap fetch now s "fox" (by decide)
  rw [h1, h2]
  refine CycleState.ext ?_ ?_ ?_
  · rw [fetchPart_articles, fetchPart_articles]
    simp
  · rw [fetchPart_retry_ne_ap fetch now _ "fox" (by decide),
      fetchPart_retry_ne_ap fetch now _ "bbc" (by decide)]
  · rw [fetchPart_attempted, fetchPart_attempted]
    rfl

/-- C2: when the AP fetch raises the hard rate-limit marker, the cycle
records a cooldown of 40 minutes from now; every cycle starting before
the recorded deadline skips fetching AP while still fetching BBC and
Fox and accumulating their articles, keeping the deadline; and the
first cycle at or after the deadline attempts all three sources again,
leaving the cooldown cleared when the AP fetch succeeds. -/
theorem C2_hard_limit_cooldown {α : Type} (now t : Nat) :
    (∀ (fetch : String → FetchResult α) (msg : String),
       fetch "ap" = .err msg → marker429 msg = true →
       (runCycle fetch now none).ap_retry_time = some (now + minutes40))
    ∧ (∀ fetch : String → FetchResult α, now < t →
         (runCycle fetch now (some t)).attempted = ["bbc", "fox"]
         ∧ (runCycle fetch now (some t)).ap_retry_time = some t
         ∧ (runCycle fetch now (some t)).all_articles
             = okArts (fetch "bbc") ++ okArts (fetch "fox"))
    ∧ (∀ fetch : String → FetchResult α, t ≤ now →
         (runCycle fetch now (some t)).attempted = ["bbc", "fox", "ap"]
         ∧ ∀ arts, fetch "ap" = .ok arts →
             (runCycle fetch now (some t)).ap_retry_time = none) := by
  refine ⟨?_, ?_, ?_⟩
  · intro fetch msg hap hmark
    show (stepSource fetch now
      (stepSource fetch now (stepSource fetch now ⟨[], none, []⟩ "bbc") "fox") "ap").ap_retry_time
      = some (now + minutes40)
    rw [twoStepState]
    simp [stepSource, fetchPart, hap, hmark]
  · intro fetch hlt
    have : runCycle fetch now (some t)
        = ⟨okArts (fetch "bbc") ++ okArts (fetch "fox"), some t, ["bbc", "fox"]⟩ := by
      show stepSource fetch now
        (stepSource fetch now (stepSource fetch now ⟨[], some t, []⟩ "bbc") "fox") "ap"
        = _
      rw [twoStepState]
      simp [stepSource, hlt]
    rw [this]
    exact ⟨rfl, rfl, rfl⟩
  · intro fetch hge
    have hnotlt : ¬ now < t := not_lt.mpr hge
    have hstep : runCycle fetch now (some t)
        = fetchPart fetch now
            ⟨okArts (fetch "bbc") ++ okArts (fetch "fox"), none, ["bbc", "fox"]⟩ "ap" := by
      show stepSource fetch now
        (stepSource fetch now (stepSource fetch now ⟨[], some t, []⟩ "bbc") "fox") "ap"
        = _
      rw [twoStepState]
      simp [stepSource, hnotlt]
    constructor
    · rw [hstep, fetchPart_attempted]
      rfl
    · intro arts hap
      rw [hstep]
      simp [fetchPart, hap]

/-- C2 witness: AP signals 429 at time 10; the cycle at time 10 records
a deadline of 10 + 2400 seconds; a cycle at time 10 with deadline 20
skips AP; a cycle at time 30 with deadline 20 attempts AP again. -/
theorem C2_witness :
    (runCycle fetch429 10 none).ap_retry_time = some (10 + minutes40)
    ∧ (runCycle fetch429 10 (some 20)).attempted = ["bbc", "fox"]
    ∧ (runCycle (fun _ => FetchResult.ok [(0 : Nat)]) 30 (some 20)).attempted
        = ["bbc", "fox", "ap"]
    ∧ (runCycle (fun _ => FetchResult.ok [(0 : Nat)]) 30 (some 20)).ap_retry_time = none := by
  refine ⟨(C2_hard_limit_cooldown 10 20).1 fetch429 "AP_NEWS_429_ERROR" rfl (by decide),
    ((C2_hard_limit_cooldown 10 20).2.1 fetch429 (by decide)).1,
    ((C2_hard_limit_cooldown 30 20).2.2 (fun _ => FetchResult.ok [(0 : Nat)]) (by decide)).1,
    ((C2_hard_limit_cooldown 30 20).2.2 (fun _ => FetchResult.ok [(0 : Nat)]) (by decide)).2
      [(0 : Nat)] rfl⟩

/-- C4: per-source failure isolation.  In crawl_all, a source whose
crawl raises contributes the empty list to the results map and nothing
to the accumulated articles, while every other source's result is
recorded unchanged; in the crawl_and_save loop, every source is
attempted (no cooldown pending) and the cycle's single article list is
the concatenation of what the non-failing sources returned, a failing
source contributing zero articles. -/
theorem C4_per_source_isolation {α : Type}
    (crawlRes : String → Except String (List α))
    (fetch : String → FetchResult α) (now : Nat) :
    (crawl_all crawlRes).1 = cycleSources.map (fun src => (src, okErrList (crawlRes src)))
    ∧ (crawl_all crawlRes).2 = (cycleSources.map (fun src => okErrList (crawlRes src))).flatten
    ∧ (runCycle fetch now none).attempted = cycleSources
    ∧ (runCycle fetch now none).all_articles
        = okArts (fetch "bbc") ++ okArts (fetch "fox") ++ okArts (fetch "ap") := by
  have hall : crawl_all crawlRes
      = (cycleSources.map (fun src => (src, okErrList (crawlRes src))),
         (cycleSources.map (fun src => okErrList (crawlRes src))).flatten) := by
    show List.foldl _ ([], []) cycleSources = _
    simp only [cycleSources, List.foldl, List.map, List.flatten]
    cases h1 : crawlRes "bbc" <;> cases h2 : crawlRes "fox" <;> cases h3 : crawlRes "ap" <;>
      simp [okErrList, h1, h2, h3]
  have hcycle : runCycle fetch now none
      = fetchPart fetch now
          ⟨okArts (fetch "bbc") ++ okArts (fetch "fox"), none, ["bbc", "fox"]⟩ "ap" := by
    show stepSource fetch now
      (stepSource fetch now (stepSource fetch now ⟨[], none, []⟩ "bbc") "fox") "ap"
      = _
    rw [twoStepState]
    simp [stepSource]
  refine ⟨by rw [hall], by rw [hall], ?_, ?_⟩
  · rw [hcycle, fetchPart_attempted]
    rfl
  · rw [hcycle, fetchPart_articles]

theorem countryLoop_step_true (tl : String) (p : String × String)
    (rest : List (String × String)) (acc : List String)
    (h1 : strContains tl p.1 = true) (h2 : p.2 ∉ acc) :
    countryLoop tl (p :: rest) acc = countryLoop tl rest (acc ++ [p.2]) := by
  simp [countryLoop, h1, h2]

theorem countryLoop_step_false (tl : String) (p : String × String)
    (rest : List (String × String)) (acc : List String)
    (h : strContains tl p.1 = false ∨ p.2 ∈ acc) :
    countryLoop tl (p :: rest) acc = countryLoop tl rest acc := by
  rcases h with h | h <;> simp [countryLoop, h]

theorem countryLoop_mem (tl : String) :
    ∀ (pairs : List (String × String)) (acc : List String) (c : String),
      c ∈ countryLoop tl pairs acc ↔
        c ∈ acc ∨ ∃ p ∈ pairs, strContains tl p.1 = true ∧ p.2 = c := by
  intro pairs
  induction pairs with
  | nil => intro acc c; simp [countryLoop]
  | cons p rest ih =>
      intro acc c
      by_cases h1 : strContains tl p.1 = true
      · by_cases h2 : p.2 ∈ acc
        · rw [countryLoop_step_false tl p rest acc (Or.inr h2), ih]
          constructor
          · rintro (h | ⟨q, hq, hqa, hqc⟩)
            · exact Or.inl h
            · exact Or.inr ⟨q, List.mem_cons_of_mem p hq, hqa, hqc⟩
          · rintro (h | ⟨q, hq, hqa, hqc⟩)
            · exact Or.inl h
            · rcases List.mem_cons.mp hq with hq | hq
              · subst hq; exact Or.inl (hqc ▸ h2)
              · exact Or.inr ⟨q, hq, hqa, hqc⟩
        · rw [countryLoop_step_true tl p rest acc h1 h2, ih]
          constructor
          · rintro (h | ⟨q, hq, hqa, hqc⟩)
            · rcases List.mem_append.mp h with h | h
              · exact Or.inl h
              · refine Or.inr ⟨p, List.mem_cons_self p rest, h1, ?_⟩
                have hc : c = p.2 := by simpa using h
                exact hc.symm
            · exact Or.inr ⟨q, List.mem_cons_of_mem p hq, hqa, hqc⟩
          · rintro (h | ⟨q, hq, hqa, hqc⟩)
            · exact Or.inl (List.mem_append.mpr (Or.inl h))
            · rcases List.mem_cons.mp hq with hq | hq
              · subst hq
                exact Or.inl (List.mem_append.mpr (Or.inr (by simp [hqc])))
              · exact Or.inr ⟨q, hq, hqa, hqc⟩
      · have h1f : strContains tl p.1 = false := by
          cases hx : strContains tl p.1
          · rfl
          · exact absurd hx h1
        rw [countryLoop_step_false tl p rest acc (Or.inl h1f), ih]
        constructor
        · rintro (h | ⟨q, hq, hqa, hqc⟩)
          · exact Or.inl h
          · exact Or.inr ⟨q, List.mem_cons_of_mem p hq, hqa, hqc⟩
        · rintro (h | ⟨q, hq, hqa, hqc⟩)
          · exact Or.inl h
          · rcases List.mem_cons.mp hq with hq | hq
            · subst hq; exact absurd hqa h1
            · exact Or.inr ⟨q, hq, hqa, hqc⟩

theorem countryLoop_nodup (tl : String) :
    ∀ (pairs : List (String × String)) (acc : List String),
      acc.Nodup → (countryLoop tl pairs acc).Nodup := by
  intro pairs
  induction pairs with
  | nil => intro acc h; exact h
  | cons p rest ih =>
      intro acc hacc
      by_cases h1 : strContains tl p.1 = true
      · by_cases h2 : p.2 ∈ acc
        · rw [countryLoop_step_false tl p rest acc (Or.inr h2)]
          exact ih acc hacc
        · rw [countryLoop_step_true tl p rest acc h1 h2]
          refine ih _ ?_
          simpa [List.nodup_append] using ⟨hacc, h2⟩
      · have h1f : strContains tl p.1 = false := by
          cases hx : strContains tl p.1
          · rfl
          · exact absurd hx h1
        rw [countryLoop_step_false tl p rest acc (Or.inl h1f)]
        exact ih acc hacc

theorem countryLoop_no_match (tl : String) :
    ∀ (pairs : List (String × String)) (acc : List String),
      (∀ p ∈ pairs, strContains tl p.1 = false) →
      countryLoop tl pairs acc = acc := by
  intro pairs
  induction pairs with
  | nil => intro acc _; rfl
  | cons p rest ih =>
      intro acc hall
      have hp : strContains tl p.1 = false := hall p (by simp)
      simp only [countryLoop, hp, Bool.false_and, if_false]
      exact ih acc (fun q hq => hall q (by simp [hq]))

/-- C7: extract_countries always returns a non-empty duplicate-free
list: exactly ["Unknown"] when the text is empty or no configured
keyword occurs in the lowered text, and otherwise precisely the
countries mapped from the keywords that do occur. -/
theorem C7_extract_countries_floor (cfg : CrawlerConfig) (text : String) :
    extract_countries cfg text ≠ []
    ∧ (extract_countries cfg text).Nodup
    ∧ ((text = "" ∨ ∀ p ∈ cfg.countries, strContains (strLower text) p.1 = false) →
        extract_countries cfg text = ["Unknown"])
    ∧ (text ≠ "" →
        (∃ p ∈ cfg.countries, strContains (strLower text) p.1 = true) →
        ∀ c, c ∈ extract_countries cfg text ↔
          ∃ p ∈ cfg.countries, strContains (strLower text) p.1 = true ∧ p.2 = c) := by
  by_cases htext : text = ""
  · refine ⟨by simp [extract_countries, htext], by simp [extract_countries, htext], ?_, ?_⟩
    · intro _; simp [extract_countries, htext]
    · intro h; exact absurd htext h
  · have hbody : extract_countries cfg text
        = (if countryLoop (strLower text) cfg.countries [] = [] then ["Unknown"]
           else countryLoop (strLower text) cfg.countries []) := by
      simp [extract_countries, htext]
    by_cases hloop : countryLoop (strLower text) cfg.countries [] = []
    · have hres : extract_countries cfg text = ["Unknown"] := by
        rw [hbody, if_pos hloop]
      refine ⟨by simp [hres], by simp [hres], fun _ => hres, ?_⟩
      intro _ hex c
      obtain ⟨p, hp, hmatch⟩ := hex
      have : p.2 ∈ countryLoop (strLower text) cfg.countries [] :=
        (countryLoop_mem (strLower text) cfg.countries [] p.2).mpr
          (Or.inr ⟨p, hp, hmatch, rfl⟩)
      rw [hloop] at this
      cases this
    · have hres : extract_countries cfg text
          = countryLoop (strLower text) cfg.countries [] := by
        rw [hbody, if_neg hloop]
      refine ⟨by rw [hres]; exact hloop, by rw [hres]; exact countryLoop_nodup _ _ [] (by simp),
        ?_, ?_⟩
      · rintro (h | h)
        · exact absurd h htext
        · exact absurd (countryLoop_no_match (strLower text) cfg.countries [] h) hloop
      · intro _ _ c
        rw [hres, countryLoop_mem]
        simp

/-- C7 witness: a concrete config and texts exercising both the
"Unknown" floor and the keyword-hit branch. -/
theorem C7_witness :
    extract_countries sampleConfig "" = ["Unknown"]
    ∧ extract_countries sampleConfig "no places here" = ["Unknown"]
    ∧ ("Japan" ∈ extract_countries sampleConfig "Quake hits Japan") := by
  refine ⟨(C7_extract_countries_floor sampleConfig "").2.2.1 (Or.inl rfl),
    (C7_extract_countries_floor sampleConfig "no places here").2.2.1 (Or.inr (by decide)),
    ((C7_extract_countries_floor sampleConfig "Quake hits Japan").2.2.2 (by decide)
      (by decide) "Japan").mpr (by decide)⟩

theorem locLoop_step_skip (ms : ℚ) (ml : Nat) (e : Entity) (l : List Entity)
    (seen : List String) (filtered : List Entity)
    (h : strLower e.word ∈ seen ∨ e.score < ms ∨ e.word.length < ml) :
    locLoop ms ml (e :: l) seen filtered = locLoop ms ml l seen filtered := by
  by_cases h1 : strLower e.word ∈ seen
  · simp [locLoop, h1]
  · rcases h with h | h | h
    · exact absurd h h1
    · simp [locLoop, h1, h]
    · simp [locLoop, h1, h]

theorem locLoop_step_accept (ms : ℚ) (ml : Nat) (e : Entity) (l : List Entity)
    (seen : List String) (filtered : List Entity)
    (h1 : strLower e.word ∉ seen) (h2 : ¬ e.score < ms) (h3 : ¬ e.word.length < ml) :
    locLoop ms ml (e :: l) seen filtered
      = locLoop ms ml l (seen ++ [strLower e.word]) (filtered ++ [e]) := by
  simp [locLoop, h1, h2, h3]

theorem locLoop_shape (ms : ℚ) (ml : Nat) :
    ∀ (l : List Entity) (seen : List String) (filtered : List Entity),
      ∃ rest, locLoop ms ml l seen filtered = filtered ++ rest ∧ rest.Sublist l := by
  intro l
  induction l with
  | nil => intro seen filtered; exact ⟨[], by simp [locLoop], List.Sublist.refl []⟩
  | cons e l2 ih =>
      intro seen filtered
      by_cases h1 : strLower e.word ∈ seen
      · obtain ⟨rest, heq, hsub⟩ := ih seen filtered
        exact ⟨rest,
          by rw [locLoop_step_skip ms ml e l2 seen filtered (Or.inl h1)]; exact heq,
          hsub.cons e⟩
      · by_cases h2 : e.score < ms
        · obtain ⟨rest, heq, hsub⟩ := ih seen filtered
          exact ⟨rest,
            by rw [locLoop_step_skip ms ml e l2 seen filtered (Or.inr (Or.inl h2))]; exact heq,
            hsub.cons e⟩
        · by_cases h3 : e.word.length < ml
          · obtain ⟨rest, heq, hsub⟩ := ih seen filtered
            exact ⟨rest,
              by rw [locLoop_step_skip ms ml e l2 seen filtered (Or.inr (Or.inr h3))]; exact heq,
              hsub.cons e⟩
          · obtain ⟨rest, heq, hsub⟩ := ih (seen ++ [strLower e.word]) (filtered ++ [e])
            refine ⟨e :: rest, ?_, hsub.cons₂ e⟩
            rw [locLoop_step_accept ms ml e l2 seen filtered h1 h2 h3, heq]
            simp

theorem locLoop_thresholds (ms : ℚ) (ml : Nat) :
    ∀ (l : List Entity) (seen : List String) (filtered : List Entity),
      (∀ e ∈ filtered, ms ≤ e.score ∧ ml ≤ e.word.length) →
      ∀ e ∈ locLoop ms ml l seen filtered, ms ≤ e.score ∧ ml ≤ e.word.length := by
  intro l
  induction l with
  | nil => intro seen filtered h; exact h
  | cons e l2 ih =>
      intro seen filtered hfil
      by_cases h1 : strLower e.word ∈ seen
      · rw [locLoop_step_skip ms ml e l2 seen filtered (Or.inl h1)]
        exact ih seen filtered hfil
      · by_cases h2 : e.score < ms
        · rw [locLoop_step_skip ms ml e l2 seen filtered (Or.inr (Or.inl h2))]
          exact ih seen filtered hfil
        · by_cases h3 : e.word.length < ml
          · rw [locLoop_step_skip ms ml e l2 seen filtered (Or.inr (Or.inr h3))]
            exact ih seen filtered hfil
          · rw [locLoop_step_accept ms ml e l2 seen filtered h1 h2 h3]
            refine ih _ _ ?_
            intro x hx
            rcases List.mem_append.mp hx with hx | hx
            · exact hfil x hx
            · have hx2 : x = e := by simpa using hx
              subst hx2
              exact ⟨le_of_not_lt h2, le_of_not_lt h3⟩

theorem locLoop_keys_nodup (ms : ℚ) (ml : Nat) :
    ∀ (l : List Entity) (seen : List String) (filtered : List Entity),
      (∀ k ∈ filtered.map (fun e => strLower e.word), k ∈ seen) →
      (filtered.map (fun e => strLower e.word)).Nodup →
      ((locLoop ms ml l seen filtered).map (fun e => strLower e.word)).Nodup := by
  intro l
  induction l with
  | nil => intro seen filtered _ h; exact h
  | cons e l2 ih =>
      intro seen filtered hsub hnd
      by_cases h1 : strLower e.word ∈ seen
      · rw [locLoop_step_skip ms ml e l2 seen filtered (Or.inl h1)]
        exact ih seen filtered hsub hnd
      · by_cases h2 : e.score < ms
        · rw [locLoop_step_skip ms ml e l2 seen filtered (Or.inr (Or.inl h2))]
          exact ih seen filtered hsub hnd
        · by_cases h3 : e.word.length < ml
          · rw [locLoop_step_skip ms ml e l2 seen filtered (Or.inr (Or.inr h3))]
            exact ih seen filtered hsub hnd
          · rw [locLoop_step_accept ms ml e l2 seen filtered h1 h2 h3]
            refine ih _ _ ?_ ?_
            · intro k hk
              rw [List.map_append] at hk
              rcases List.mem_append.mp hk with hk | hk
              · exact List.mem_append.mpr (Or.inl (hsub k hk))
              · exact List.mem_append.mpr (Or.inr (by simpa using hk))
            · rw [List.map_append]
              have hnotin : ∀ x ∈ filtered, ¬ strLower x.word = strLower e.word := by
                intro x hx hxe
                exact h1 (hxe ▸ hsub (strLower x.word) (List.mem_map_of_mem _ hx))
              simpa [List.nodup_append] using ⟨hnd, hnotin⟩

/-- C8: extract_locations keeps only place-labeled entities, in arrival
order (its output is a sublist of the LOC-filtered input); every
survivor meets the score and length thresholds; no two survivors share
a case-insensitive key (the first accepted occurrence is kept); and on
the entities [("Kyiv", LOC, 0.95), ("kyiv", LOC, 0.80),
("Kyiv", LOC, 0.91)] with min_score 0.90 and min_length 2 the result is
exactly the single entry ("Kyiv", LOC, 0.95). -/
theorem C8_location_filter (entities : List Entity) (ms : ℚ) (ml : Nat) :
    (extract_locations entities ms ml).Sublist
        (entities.filter (fun e => e.entity_group = "LOC"))
    ∧ (∀ e ∈ extract_locations entities ms ml, ms ≤ e.score ∧ ml ≤ e.word.length)
    ∧ ((extract_locations entities ms ml).map (fun e => strLower e.word)).Nodup
    ∧ extract_locations
        [⟨"Kyiv", "LOC", 95 / 100⟩, ⟨"kyiv", "LOC", 80 / 100⟩, ⟨"Kyiv", "LOC", 91 / 100⟩]
        (90 / 100) 2
      = [⟨"Kyiv", "LOC", 95 / 100⟩] := by
  have h90 : (90 : ℚ) / 100 = mkRat 90 100 := by rw [Rat.mkRat_eq_div]; norm_num
  have h95 : (95 : ℚ) / 100 = mkRat 95 100 := by rw [Rat.mkRat_eq_div]; norm_num
  have h80 : (80 : ℚ) / 100 = mkRat 80 100 := by rw [Rat.mkRat_eq_div]; norm_num
  have h91 : (91 : ℚ) / 100 = mkRat 91 100 := by rw [Rat.mkRat_eq_div]; norm_num
  refine ⟨?_, ?_, ?_, by rw [h90, h95, h80, h91]; decide⟩
  · obtain ⟨rest, heq, hsub⟩ :=
      locLoop_shape ms ml (entities.filter (fun e => e.entity_group = "LOC")) [] []
    rw [extract_locations, heq]
    simpa using hsub
  · intro e he
    exact locLoop_thresholds ms ml _ [] [] (by simp) e he
  · exact locLoop_keys_nodup ms ml _ [] [] (by simp) (by simp)

/-- C8 witness: the thresholds hold for the surviving Kyiv entity. -/
theorem C8_witness :
    ((90 : ℚ) / 100 ≤ (95 : ℚ) / 100 ∧ 2 ≤ "Kyiv".length)
    ∧ extract_locations
        [⟨"Kyiv", "LOC", 95 / 100⟩, ⟨"kyiv", "LOC", 80 / 100⟩, ⟨"Kyiv", "LOC", 91 / 100⟩]
        (90 / 100) 2
      = [⟨"Kyiv", "LOC", 95 / 100⟩] := by
  have h := C8_location_filter
    [⟨"Kyiv", "LOC", 95 / 100⟩, ⟨"kyiv", "LOC", 80 / 100⟩, ⟨"Kyiv", "LOC", 91 / 100⟩]
    (90 / 100) 2
  exact ⟨h.2.1 ⟨"Kyiv", "LOC", 95 / 100⟩ (by rw [h.2.2.2]; simp), h.2.2.2⟩

theorem foldr_max_mem : ∀ (l : List Nat), l ≠ [] → l.foldr max 0 ∈ l := by
  intro l
  induction l with
  | nil => intro h; cases h rfl
  | cons a as ih =>
      intro _
      by_cases hne : as = []
      · subst hne; simp
      · rcases le_total a (as.foldr max 0) with h | h
        · have hfold : (a :: as).foldr max 0 = as.foldr max 0 := by
            simp [max_eq_right h]
          rw [hfold]
          exact List.mem_cons_of_mem a (ih hne)
        · have hfold : (a :: as).foldr max 0 = a := by
            simp [max_eq_left h]
          rw [hfold]
          exact List.mem_cons_self a as

theorem scoreLoop_eq (text : String) :
    ∀ (cats : List (String × List String)) (acc : List (String × Nat)),
      scoreLoop text cats acc
        = acc ++ (cats.map (fun p => (p.1, keywordScore text p.2))).filter
            (fun p => decide (0 < p.2)) := by
  intro cats
  induction cats with
  | nil => intro acc; simp [scoreLoop]
  | cons p rest ih =>
      intro acc
      by_cases h : 0 < keywordScore text p.2
      · simp only [scoreLoop, if_pos h, ih, List.map_cons, List.filter_cons]
        simp [h]
      · simp only [scoreLoop, if_neg h, ih, List.map_cons, List.filter_cons]
        simp [h]

theorem posMax_eq :
    ∀ S : List (String × Nat),
      ((S.filter (fun p => decide (0 < p.2))).map Prod.snd).foldr max 0
        = (S.map Prod.snd).foldr max 0 := by
  intro S
  induction S with
  | nil => rfl
  | cons p rest ih =>
      by_cases h : 0 < p.2
      · simp [List.filter_cons, h, ih]
      · have h0 : p.2 = 0 := by omega
        simp [List.filter_cons, h, ih, h0]

theorem pos_nil_iff :
    ∀ S : List (String × Nat),
      S.filter (fun p => decide (0 < p.2)) = []
        ↔ (S.map Prod.snd).foldr max 0 = 0 := by
  intro S
  induction S with
  | nil => simp
  | cons p rest ih =>
      by_cases h : 0 < p.2
      · simp only [List.filter_cons, h, decide_True, if_true, List.map_cons, List.foldr_cons]
        constructor
        · intro hcontra; cases hcontra
        · intro hmax
          have := Nat.max_eq_zero_iff.mp hmax
          omega
      · have h0 : p.2 = 0 := by omega
        simp [List.filter_cons, h, ih, h0]

theorem pos_find_eq (m : Nat) (hm : m ≠ 0) :
    ∀ S : List (String × Nat),
      (S.filter (fun p => decide (0 < p.2))).find? (fun p => decide (p.2 = m))
        = S.find? (fun p => decide (p.2 = m)) := by
  intro S
  induction S with
  | nil => rfl
  | cons p rest ih =>
      by_cases h : 0 < p.2
      · by_cases he : p.2 = m
        · rw [List.filter_cons_of_pos (by simpa using h),
            List.find?_cons_of_pos _ (by simpa using he),
            List.find?_cons_of_pos _ (by simpa using he)]
        · rw [List.filter_cons_of_pos (by simpa using h),
            List.find?_cons_of_neg _ (by simpa using he),
            List.find?_cons_of_neg _ (by simpa using he), ih]
      · have hne : ¬ p.2 = m := by omega
        rw [List.filter_cons_of_neg (by simpa using h),
          List.find?_cons_of_neg _ (by simpa using hne), ih]

theorem maxLoop_find :
    ∀ (rest : List (String × Nat)) (c : String) (s : Nat) (M : Nat),
      M = max s ((rest.map Prod.snd).foldr max 0) →
      ∀ q : String × Nat,
        ((c, s) :: rest).find? (fun p => decide (p.2 = M)) = some q →
        maxLoop (c, s) rest = q.1 := by
  intro rest
  induction rest with
  | nil =>
      intro c s M hM q hq
      have hMs : M = s := by simpa using hM
      rw [List.find?_cons_of_pos _ (by simp [hMs])] at hq
      injection hq with hq
      rw [← hq]
      rfl
  | cons p rs ih =>
      intro c s M hM q hq
      rcases p with ⟨c2, s2⟩
      by_cases hlt : s < s2
      · have hstep : maxLoop (c, s) ((c2, s2) :: rs) = maxLoop (c2, s2) rs := by
          simp [maxLoop, hlt]
        rw [hstep]
        have hM2 : M = max s2 ((rs.map Prod.snd).foldr max 0) := by
          rw [hM]
          simp only [List.map_cons, List.foldr_cons]
          exact max_eq_right (le_trans (le_of_lt hlt) (le_max_left _ _))
        have hsne : ¬ s = M := by
          have : s < M := lt_of_lt_of_le hlt (by rw [hM2]; exact le_max_left _ _)
          omega
        rw [List.find?_cons_of_neg _ (by simp [hsne])] at hq
        exact ih c2 s2 M hM2 q hq
      · have hstep : maxLoop (c, s) ((c2, s2) :: rs) = maxLoop (c, s) rs := by
          simp [maxLoop, hlt]
        rw [hstep]
        have hs2le : s2 ≤ s := le_of_not_lt hlt
        have hM1 : M = max s ((rs.map Prod.snd).foldr max 0) := by
          rw [hM]
          simp only [List.map_cons, List.foldr_cons]
          rw [← max_assoc, max_eq_left hs2le]
        by_cases hse : s = M
        · rw [List.find?_cons_of_pos _ (by simp [hse])] at hq
          injection hq with hq
          have hfind : ((c, s) :: rs).find? (fun p => decide (p.2 = M)) = some (c, s) :=
            List.find?_cons_of_pos _ (by simp [hse])
          have := ih c s M hM1 (c, s) hfind
          rw [this, ← hq]
        · rw [List.find?_cons_of_neg _ (by simp [hse])] at hq
          have hsltM : s < M := by
            have hle : s ≤ M := by rw [hM1]; exact le_max_left _ _
            omega
          have hs2ne : ¬ s2 = M := by omega
          rw [List.find?_cons_of_neg _ (by simp [hs2ne])] at hq
          have hfind : ((c, s) :: rs).find? (fun p => decide (p.2 = M)) = some q := by
            rw [List.find?_cons_of_neg _ (by simp [hse])]
            exact hq
          exact ih c s M hM1 q hfind

/-- C6: categorize_article agrees with the specified contract — each
configured category is scored by counting its keywords occurring as
substrings of the lower-cased title-plus-body; the first-declared
category attaining the (strictly highest, positive) score is returned,
and "General" when every score is zero — and the function is
deterministic in (title, body). -/
theorem C6_categorize_matches_spec (cfg : CrawlerConfig) (title content : String) :
    categorize_article cfg title content = specCategorize cfg title content
    ∧ ∀ title2 content2, title = title2 → content = content2 →
        categorize_article cfg title content = categorize_article cfg title2 content2 := by
  refine ⟨?_, by intro t2 c2 h1 h2; rw [h1, h2]⟩
  have hpos : scoreLoop (strLower (title ++ " " ++ content)) cfg.categories []
      = (cfg.categories.map
          (fun p => (p.1, keywordScore (strLower (title ++ " " ++ content)) p.2))).filter
          (fun p => decide (0 < p.2)) := by
    rw [scoreLoop_eq]
    simp
  by_cases hm0 :
      ((cfg.categories.map
          (fun p => (p.1, keywordScore (strLower (title ++ " " ++ content)) p.2))).map
          Prod.snd).foldr max 0 = 0
  · have hnil : (cfg.categories.map
        (fun p => (p.1, keywordScore (strLower (title ++ " " ++ content)) p.2))).filter
        (fun p => decide (0 < p.2)) = [] :=
      (pos_nil_iff _).mpr hm0
    have hcat : categorize_article cfg title content = "General" := by
      simp only [categorize_article]
      rw [hpos, hnil]
    have hspec : specCategorize cfg title content = "General" := by
      simp only [specCategorize]
      rw [if_pos hm0]
    rw [hcat, hspec]
  · have hne : (cfg.categories.map
        (fun p => (p.1, keywordScore (strLower (title ++ " " ++ content)) p.2))).filter
        (fun p => decide (0 < p.2)) ≠ [] := by
      intro h
      exact hm0 ((pos_nil_iff _).mp h)
    obtain ⟨b, rest2, hsplit⟩ : ∃ b rest2,
        (cfg.categories.map
          (fun p => (p.1, keywordScore (strLower (title ++ " " ++ content)) p.2))).filter
          (fun p => decide (0 < p.2)) = b :: rest2 := by
      cases hx : (cfg.categories.map
          (fun p => (p.1, keywordScore (strLower (title ++ " " ++ content)) p.2))).filter
          (fun p => decide (0 < p.2)) with
      | nil => exact absurd hx hne
      | cons b r => exact ⟨b, r, rfl⟩
    have hmmem : ((cfg.categories.map
        (fun p => (p.1, keywordScore (strLower (title ++ " " ++ content)) p.2))).map
        Prod.snd).foldr max 0
        ∈ (cfg.categories.map
            (fun p => (p.1, keywordScore (strLower (title ++ " " ++ content)) p.2))).map
            Prod.snd := by
      refine foldr_max_mem _ ?_
      intro h
      rw [List.map_eq_nil_iff] at h
      rw [h] at hne
      exact hne rfl
    obtain ⟨p, hp, hpm⟩ := List.mem_map.mp hmmem
    have hsome : ((cfg.categories.map
        (fun p => (p.1, keywordScore (strLower (title ++ " " ++ content)) p.2))).find?
        (fun q => decide (q.2
          = ((cfg.categories.map
              (fun p => (p.1, keywordScore (strLower (title ++ " " ++ content)) p.2))).map
              Prod.snd).foldr max 0))).isSome := by
    -- placeholder, replaced below
      rw [List.find?_isSome]
      exact ⟨p, hp, by simp [hpm]⟩
    obtain ⟨q, hq⟩ := Option.isSome_iff_exists.mp hsome
    have hqpos := (pos_find_eq _ hm0 _).symm ▸ hq
    rw [hsplit] at hqpos
    have hM : ((cfg.categories.map
        (fun p => (p.1, keywordScore (strLower (title ++ " " ++ content)) p.2))).map
        Prod.snd).foldr max 0
        = max b.2 ((rest2.map Prod.snd).foldr max 0) := by
      have hmx := posMax_eq (cfg.categories.map
        (fun p => (p.1, keywordScore (strLower (title ++ " " ++ content)) p.2)))
      rw [hsplit] at hmx
      simpa using hmx.symm
    have hmaxloop := maxLoop_find rest2 b.1 b.2 _ hM q hqpos
    have hcat : categorize_article cfg title content = q.1 := by
      simp only [categorize_article]
      rw [hpos, hsplit]
      exact hmaxloop
    have hspec : specCategorize cfg title content = q.1 := by
      simp only [specCategorize]
      rw [if_neg hm0, hq]
    rw [hcat, hspec]

/-- C6 witness: the refinement instantiated at a concrete configuration
and article text. -/
theorem C6_witness :
    categorize_article sampleConfig "Earthquake hits" "flood follows"
      = specCategorize sampleConfig "Earthquake hits" "flood follows"
    ∧ categorize_article sampleConfig "Earthquake hits" "flood follows"
      = categorize_article sampleConfig "Earthquake hits" "flood follows" := by
  have h := C6_categorize_matches_spec sampleConfig "Earthquake hits" "flood follows"
  exact ⟨h.1, h.2 "Earthquake hits" "flood follows" rfl rfl⟩

end Atlas
